import Mathlib

/-!
# Verification of the ez-steg framing and bit-transport engine

Shallow embedding of the core steganography engine of the ez-steg
repository:

* `StegoLite` (src/stego_lite.py) — plain pixel-LSB transport with a
  4-byte big-endian length prefix;
* `StegoProduction` (ez_steg/ez_steg_core.py) — protected pixel-LSB
  transport: version/data_len/salt_len/nonce_len header, PBKDF2 key
  derivation and AES-GCM sealing (both external library primitives,
  modelled as parameters with their documented contracts);
* `StegoEmoji` (ez_steg/ez_steg_emoji.py) — Unicode variation-selector
  text transport.

Carriers are modelled as `List Nat` of pixel samples (uint8 values,
row-major channel-interleaved, exactly numpy's flattened view); texts as
`List Nat` of Unicode code points; byte strings as `List Nat` of byte
values.  Python integers are `Nat`/`Int`; Python `//` on nonnegative
operands is `Nat`/`Int` division.  Fallible operations return `Except`.
-/

namespace EzSteg

/-! ## Definitions: bit codec, carrier adapter, the three engines, and
executable model primitives -/

/-- The eight bits of a byte, most significant first
(`np.unpackbits` with the default big bit order). -/
def byteBits (b : Nat) : List Nat :=
  [b >>> 7 &&& 1, b >>> 6 &&& 1, b >>> 5 &&& 1, b >>> 4 &&& 1,
   b >>> 3 &&& 1, b >>> 2 &&& 1, b >>> 1 &&& 1, b &&& 1]

/-- `_bits_from_bytes`: `np.unpackbits(np.frombuffer(data, dtype=np.uint8))`. -/
def bitsFromBytes (d : List Nat) : List Nat :=
  (d.map byteBits).flatten

/-- One step of `np.packbits`: pack eight bits, most significant first
(nonzero entries count as set bits, as in numpy). -/
def packByte (bs : List Nat) : Nat :=
  bs.foldl (fun a b => 2 * a + min b 1) 0

/-- Pack a bit list into bytes, eight at a time, discarding a trailing
partial group (callers always pad to a multiple of eight first). -/
def bytesFromBitsAux : List Nat → List Nat
  | b0 :: b1 :: b2 :: b3 :: b4 :: b5 :: b6 :: b7 :: rest =>
      packByte [b0, b1, b2, b3, b4, b5, b6, b7] :: bytesFromBitsAux rest
  | _ => []

/-- `_bytes_from_bits`: right-pad with zero bits to a multiple of eight,
then `np.packbits`. -/
def bytesFromBits (bits : List Nat) : List Nat :=
  bytesFromBitsAux (bits ++ List.replicate ((8 - bits.length % 8) % 8) 0)

/-- `_extract_bits`: LSBs of the first `n` samples of the flattened image. -/
def readBits (img : List Nat) (n : Nat) : List Nat :=
  (img.take n).map (fun s => s &&& 1)

/-- `_embed_bits`: on a copy of the image, clear the LSB of each of the
first `len bits` samples and OR in the corresponding bit; samples beyond
`len bits` are untouched. -/
def writeBits (img : List Nat) (bits : List Nat) : List Nat :=
  List.zipWith (fun s b => (s &&& 0xFE) ||| b) img bits ++ img.drop bits.length

/-- `k`-byte big-endian encoding of `n` (the low `8*k` bits of `n`). -/
def toBE : Nat → Nat → List Nat
  | 0, _ => []
  | k + 1, n => toBE k (n / 256) ++ [n % 256]

/-- Big-endian decoding of a byte list. -/
def fromBE (bs : List Nat) : Nat :=
  bs.foldl (fun a b => 256 * a + b) 0

inductive LiteErr : Type
  | dataTooLarge
  | packOverflow
  | unpackError
  | lengthExceedsCapacity
  deriving DecidableEq

/-- `StegoLite._get_capacity`: `(image.size // 24) - self.LENGTH_BYTES`.
`image.size` is the total sample count (width × height × channels); the
result is a Python `int` and may be negative, hence `Int`. -/
def liteCapacity (img : List Nat) : Int :=
  (img.length : Int) / 24 - 4

/-- `StegoLite.embed` (the in-memory pipeline, image I/O externalized):
capacity check, 4-byte big-endian length prefix, bits, LSB write.
`packOverflow` models `struct.pack('>I', len(data))` raising for lengths
of `2^32` or more. -/
def liteEmbed (data img : List Nat) : Except LiteErr (List Nat) :=
  if (data.length : Int) > liteCapacity img then .error .dataTooLarge
  else if 2 ^ 32 ≤ data.length then .error .packOverflow
  else .ok (writeBits img (bitsFromBytes (toBE 4 data.length ++ data)))

/-- `StegoLite.extract`: read the 32 length bits, unpack them
(`struct.unpack('>I', ...)` needs exactly 4 bytes), validate the length
against capacity, then read and repack exactly that many data bits. -/
def liteExtract (img : List Nat) : Except LiteErr (List Nat) :=
  if (bytesFromBits (readBits img 32)).length ≠ 4 then .error .unpackError
  else if (fromBE (bytesFromBits (readBits img 32)) : Int) > liteCapacity img then
    .error .lengthExceedsCapacity
  else .ok (bytesFromBits
    ((readBits img (fromBE (bytesFromBits (readBits img 32)) * 8 + 4 * 8)).drop (4 * 8)))

inductive ProdErr : Type
  | shortPassword
  | dataTooLarge
  | packOverflow
  | invalidHeader
  | unsupportedVersion
  | invalidLengths
  | decryptFailed
  | lengthMismatch
  deriving DecidableEq

/-- `StegoProduction._get_capacity`:
`(image.size // 24) - (HEADER_SIZE + SALT_SIZE + NONCE_SIZE + 16)`
with `HEADER_SIZE = 9`, `SALT_SIZE = 16`, `NONCE_SIZE = 12`. -/
def prodCapacity (img : List Nat) : Int :=
  (img.length : Int) / 24 - (9 + 16 + 12 + 16)

/-- The 9-byte header `struct.pack('>BIHH', 1, len(data), len(salt), len(nonce))`. -/
def prodHeader (dataLen saltLen nonceLen : Nat) : List Nat :=
  [1] ++ toBE 4 dataLen ++ toBE 2 saltLen ++ toBE 2 nonceLen

/-- `StegoProduction.embed` (in-memory pipeline; `os.urandom` draws are
the `salt` and `nonce` arguments).  The password check is
`StegoProduction.__init__`'s validation, which necessarily precedes the
call.  `packOverflow` models `struct.pack` raising on a data length of
`2^32` or more. -/
def prodEmbed (kdf : List Nat → List Nat → List Nat)
    (sealFn : List Nat → List Nat → List Nat → List Nat)
    (password img data salt nonce : List Nat) : Except ProdErr (List Nat) :=
  if password.length < 12 then .error .shortPassword
  else if (data.length : Int) > prodCapacity img then .error .dataTooLarge
  else if 2 ^ 32 ≤ data.length then .error .packOverflow
  else
    let key := kdf password salt
    let ciphertext := sealFn key nonce data
    let allData := prodHeader data.length salt.length nonce.length
      ++ salt ++ nonce ++ ciphertext
    .ok (writeBits img (bitsFromBytes allData))

/-- `StegoProduction.extract` (in-memory pipeline): read and unpack the
9-byte header, check the version, validate the three length fields,
read the full frame, slice salt / nonce / ciphertext, derive the key and
decrypt, and require the plaintext length to match `data_len`. -/
def prodExtract (kdf : List Nat → List Nat → List Nat)
    (opn : List Nat → List Nat → List Nat → Option (List Nat))
    (password img : List Nat) : Except ProdErr (List Nat) :=
  if password.length < 12 then .error .shortPassword
  else
    let headerBytes := bytesFromBits (readBits img (9 * 8))
    if headerBytes.length ≠ 9 then .error .invalidHeader
    else
      let version := headerBytes.getD 0 0
      let dataLen := fromBE ((headerBytes.drop 1).take 4)
      let saltLen := fromBE ((headerBytes.drop 5).take 2)
      let nonceLen := fromBE ((headerBytes.drop 7).take 2)
      if version ≠ 1 then .error .unsupportedVersion
      else if ¬(0 < saltLen ∧ saltLen ≤ 64 ∧ 0 < nonceLen ∧ nonceLen ≤ 32 ∧
          0 < dataLen ∧ (dataLen : Int) ≤ prodCapacity img) then
        .error .invalidLengths
      else
        let totalSize := 9 + saltLen + nonceLen + dataLen + 16
        let allData := bytesFromBits (readBits img (totalSize * 8))
        let salt := (allData.drop 9).take saltLen
        let nonce := (allData.drop (9 + saltLen)).take nonceLen
        let ciphertext := allData.drop (9 + saltLen + nonceLen)
        match opn (kdf password salt) nonce ciphertext with
        | none => .error .decryptFailed
        | some plaintext =>
            if plaintext.length ≠ dataLen then .error .lengthMismatch
            else .ok plaintext

inductive EmojiErr : Type
  | invalidByte
  | invalidSelector
  | packOverflow
  | dataTooShort
  | badLengthField
  deriving DecidableEq

/-- `StegoEmoji._byte_to_variation_selector`: byte values 0–15 map to
U+FE00..U+FE0F, 16–255 to U+E0100..U+E01EF; anything else raises. -/
def byteToVariationSelector (b : Nat) : Except EmojiErr Nat :=
  if 255 < b then .error .invalidByte
  else if b < 16 then .ok (0xFE00 + b)
  else .ok (0xE0100 + (b - 16))

/-- `StegoEmoji._variation_selector_to_byte`: the inverse map, rejecting
code points outside the two selector ranges. -/
def variationSelectorToByte (cp : Nat) : Except EmojiErr Nat :=
  if 0xFE00 ≤ cp ∧ cp ≤ 0xFE0F then .ok (cp - 0xFE00)
  else if 0xE0100 ≤ cp ∧ cp ≤ 0xE01EF then .ok (cp - 0xE0100 + 16)
  else .error .invalidSelector

/-- `StegoEmoji.embed`: 4-byte big-endian length prefix, then one
variation selector per byte, appended after the anchor code point. -/
def emojiEmbed (anchor : Nat) (data : List Nat) : Except EmojiErr (List Nat) :=
  if 2 ^ 32 ≤ data.length then .error .packOverflow
  else
    match (toBE 4 data.length ++ data).mapM byteToVariationSelector with
    | .error e => .error e
    | .ok selectors => .ok (anchor :: selectors)

/-- `StegoEmoji.extract`: drop the first code point (the anchor), map
every remaining code point back to a byte, read the 4-byte length
prefix, validate it, and slice out the payload. -/
def emojiExtract (text : List Nat) : Except EmojiErr (List Nat) :=
  match (text.drop 1).mapM variationSelectorToByte with
  | .error e => .error e
  | .ok allData =>
    if allData.length < 4 then .error .dataTooShort
    else
      let dataLength := fromBE (allData.take 4)
      if allData.length - 4 < dataLength then .error .badLengthField
      else .ok ((allData.drop 4).take dataLength)

/-- Modelled from the spec: an injective encoding of a byte list into one
natural number, used to build executable stand-ins for the external
crypto primitives. -/
def listEnc : List Nat → Nat
  | [] => 0
  | x :: xs => Nat.pair x (listEnc xs) + 1

/-- Modelled from the spec: `PBKDF2HMAC.derive` as a key-derivation
function whose 32-entry keys are collision-free in (password, salt)
("different salts must yield unlinkable keys", spec section 4.3). -/
def injKdf (password salt : List Nat) : List Nat :=
  Nat.pair (listEnc password) (listEnc salt) :: List.replicate 31 0

/-- Modelled from the spec: `AESGCM.encrypt` as a byte-valued AEAD seal
producing ciphertext-plus-tag of length `plaintext + 16` (spec section
4.4); here the trivial instance, plaintext followed by a 16-byte zero
tag. -/
def trivSeal (_key _nonce plaintext : List Nat) : List Nat :=
  plaintext ++ List.replicate 16 0

/-- Modelled from the spec: `AESGCM.decrypt` inverting `trivSeal` by
stripping the 16-byte tag. -/
def trivOpn (_key _nonce c : List Nat) : Option (List Nat) :=
  if 16 ≤ c.length then some (c.take (c.length - 16)) else none

/-- The byte frame a protected embed writes. -/
def prodFrame (salt nonce ciphertext : List Nat) (L : Nat) : List Nat :=
  prodHeader L salt.length nonce.length ++ salt ++ nonce ++ ciphertext

/-- The total forward byte-to-code-point map (meaningful on bytes < 256). -/
def vsFwd (b : Nat) : Nat :=
  if b < 16 then 0xFE00 + b else 0xE0100 + (b - 16)

/-- A 12-character password, as UTF-8 byte values. -/
def wPw : List Nat := List.replicate 12 97

/-- A second, different 12-character password. -/
def wPw2 : List Nat := List.replicate 12 98

/-- A 16-byte salt (as drawn by `os.urandom(16)`). -/
def wSalt : List Nat := List.replicate 16 1

/-- A 12-byte nonce (as drawn by `os.urandom(12)`). -/
def wNonce : List Nat := List.replicate 12 2

/-- A one-byte payload. -/
def wData : List Nat := [42]

/-- A carrier of 1296 samples (protected capacity exactly 1 byte). -/
def wImg : List Nat := List.replicate 1296 0

/-- A carrier of 120 samples (plain capacity exactly 1 byte). -/
def wImgLite : List Nat := List.replicate 120 4

/-- The genuine AEAD input triple of the witness embed. -/
def wKey : List Nat := injKdf wPw wSalt

/-- The genuine witness ciphertext. -/
def wCt : List Nat := trivSeal wKey wNonce wData

/-- Modelled from the spec: `AESGCM.decrypt` as the ideal single-message
authenticity functionality - only the genuine (key, nonce, ciphertext)
triple of the witness embed opens; everything else fails "with an
authentication error if the tag does not verify (wrong key, corrupted
ciphertext, or tampered carrier)" (spec section 4.4). -/
def idealOpn (k n c : List Nat) : Option (List Nat) :=
  if k = wKey ∧ n = wNonce ∧ c = wCt then some wData else none

/-- The spec's 100×100 3-channel carrier: 30,000 samples. -/
def c2Img : List Nat := List.replicate 30000 0

/-- The spec's test payload `b"Test data for steganography"` (27 bytes). -/
def c2Payload : List Nat :=
  [84, 101, 115, 116, 32, 100, 97, 116, 97, 32, 102, 111, 114, 32,
   115, 116, 101, 103, 97, 110, 111, 103, 114, 97, 112, 104, 121]

/-- The carrier produced by plain-embedding `c2Payload` into `c2Img`. -/
def c2Carrier : List Nat :=
  writeBits c2Img (bitsFromBytes (toBE 4 c2Payload.length ++ c2Payload))

/-- An 80-sample carrier whose first 72 LSBs decode to a version-1
header with `salt_len = 0` (all other fields zero as well). -/
def c4Img : List Nat := [0, 0, 0, 0, 0, 0, 0, 1] ++ List.replicate 72 0

/-- A carrier agreeing with `c4Img` on length and on the first 72
samples, but differing in the body region. -/
def c4Img2 : List Nat :=
  [0, 0, 0, 0, 0, 0, 0, 1] ++ List.replicate 64 0 ++ List.replicate 8 9

/-- The carrier a protected embed of the EMPTY payload produces on
`wImg` (under the executable model primitives). -/
def ceCarrier2 : List Nat :=
  writeBits wImg (bitsFromBytes
    (prodFrame wSalt wNonce (trivSeal (injKdf wPw wSalt) wNonce []) 0))

/-- The carrier the witness protected embed produces on `wImg` (under
the executable model primitives). -/
def wCarrier : List Nat :=
  writeBits wImg (bitsFromBytes
    (prodFrame wSalt wNonce (trivSeal (injKdf wPw wSalt) wNonce wData) wData.length))

/-! ## Theorems: codec and carrier lemmas, frame lemmas, and the claim
theorems with their witnesses and counterexamples -/

theorem byteBits_length (b : Nat) : (byteBits b).length = 8 := rfl

theorem byteBits_le_one (b : Nat) : ∀ x ∈ byteBits b, x ≤ 1 := by
  intro x hx
  simp only [byteBits, List.mem_cons, List.not_mem_nil, or_false] at hx
  rcases hx with rfl | rfl | rfl | rfl | rfl | rfl | rfl | rfl <;>
    exact Nat.and_le_right

theorem bitsFromBytes_nil : bitsFromBytes [] = [] := rfl

theorem bitsFromBytes_cons (b : Nat) (d : List Nat) :
    bitsFromBytes (b :: d) = byteBits b ++ bitsFromBytes d := by
  simp [bitsFromBytes]

theorem bitsFromBytes_append (d e : List Nat) :
    bitsFromBytes (d ++ e) = bitsFromBytes d ++ bitsFromBytes e := by
  simp [bitsFromBytes]

theorem bitsFromBytes_length (d : List Nat) :
    (bitsFromBytes d).length = 8 * d.length := by
  induction d with
  | nil => rfl
  | cons b d ih =>
      rw [bitsFromBytes_cons, List.length_append, ih, byteBits_length,
        List.length_cons]
      ring

theorem bitsFromBytes_le_one (d : List Nat) : ∀ x ∈ bitsFromBytes d, x ≤ 1 := by
  induction d with
  | nil => intro x hx; simp [bitsFromBytes_nil] at hx
  | cons b d ih =>
      intro x hx
      rw [bitsFromBytes_cons, List.mem_append] at hx
      rcases hx with h | h
      · exact byteBits_le_one b x h
      · exact ih x h

set_option maxRecDepth 4096 in
theorem packByte_byteBits : ∀ b < 256, packByte (byteBits b) = b := by decide

theorem bytesFromBitsAux_cons8 (l8 l : List Nat) (h : l8.length = 8) :
    bytesFromBitsAux (l8 ++ l) = packByte l8 :: bytesFromBitsAux l := by
  match l8, h with
  | [a, b, c, d, e, f, g, i], _ => rfl

theorem bytesFromBitsAux_bitsFromBytes (d : List Nat) (hd : ∀ b ∈ d, b < 256)
    (l : List Nat) :
    bytesFromBitsAux (bitsFromBytes d ++ l) = d ++ bytesFromBitsAux l := by
  induction d with
  | nil => simp [bitsFromBytes_nil]
  | cons b d ih =>
      rw [bitsFromBytes_cons, List.append_assoc,
        bytesFromBitsAux_cons8 _ _ (byteBits_length b),
        packByte_byteBits b (hd b (List.mem_cons_self b d)),
        ih (fun x hx => hd x (List.mem_cons_of_mem b hx)), List.cons_append]

theorem bytesFromBits_of_mul8 (bits : List Nat) (h : bits.length % 8 = 0) :
    bytesFromBits bits = bytesFromBitsAux bits := by
  simp [bytesFromBits, h]

theorem bytesFromBits_bitsFromBytes (d : List Nat) (hd : ∀ b ∈ d, b < 256) :
    bytesFromBits (bitsFromBytes d) = d := by
  rw [bytesFromBits_of_mul8 _ (by rw [bitsFromBytes_length]; omega)]
  have := bytesFromBitsAux_bitsFromBytes d hd []
  simpa [bytesFromBitsAux] using this

theorem bytesFromBitsAux_length_of_mul8 (bits : List Nat) :
    ∀ k, bits.length = 8 * k → (bytesFromBitsAux bits).length = k := by
  induction bits using bytesFromBitsAux.induct with
  | case1 b0 b1 b2 b3 b4 b5 b6 b7 rest ih =>
      intro k hk
      rcases k with _ | k
      · simp at hk
      · simp only [bytesFromBitsAux, List.length_cons]
        rw [ih k (by simp at hk; omega)]
  | case2 l hl =>
      intro k hk
      rcases k with _ | k
      · cases l with
        | nil => rfl
        | cons a l => simp at hk
      · exfalso
        rcases l with _ | ⟨a0, _ | ⟨a1, _ | ⟨a2, _ | ⟨a3, _ | ⟨a4, _ | ⟨a5, _ | ⟨a6, _ | ⟨a7, t⟩⟩⟩⟩⟩⟩⟩⟩
        · simp at hk
        all_goals first
          | (exact hl a0 a1 a2 a3 a4 a5 a6 a7 t rfl)
          | (simp at hk; omega)

theorem bytesFromBits_length_of_mul8 (bits : List Nat) (k : Nat)
    (h : bits.length = 8 * k) : (bytesFromBits bits).length = k := by
  rw [bytesFromBits_of_mul8 _ (by omega)]
  exact bytesFromBitsAux_length_of_mul8 bits k h

theorem toBE_length (k n : Nat) : (toBE k n).length = k := by
  induction k generalizing n with
  | zero => rfl
  | succ k ih => simp [toBE, ih]

theorem toBE_lt (k n : Nat) : ∀ b ∈ toBE k n, b < 256 := by
  induction k generalizing n with
  | zero => intro b hb; simp [toBE] at hb
  | succ k ih =>
      intro b hb
      simp only [toBE, List.mem_append, List.mem_singleton] at hb
      rcases hb with h | h
      · exact ih (n / 256) b h
      · subst h; exact Nat.mod_lt _ (by norm_num)

theorem fromBE_append_singleton (l : List Nat) (b : Nat) :
    fromBE (l ++ [b]) = 256 * fromBE l + b := by
  simp [fromBE]

theorem fromBE_toBE (k n : Nat) (h : n < 256 ^ k) : fromBE (toBE k n) = n := by
  induction k generalizing n with
  | zero => interval_cases n; rfl
  | succ k ih =>
      rw [toBE, fromBE_append_singleton, ih (n / 256) ?_]
      · omega
      · rw [Nat.div_lt_iff_lt_mul (by norm_num)]
        calc n < 256 ^ (k + 1) := h
        _ = 256 ^ k * 256 := by ring

theorem write_lsb (s b : Nat) (hb : b ≤ 1) : ((s &&& 0xFE) ||| b) &&& 1 = b := by
  have h254 : (s &&& 0xFE) &&& 1 = 0 := by rw [Nat.and_assoc]; norm_num
  rw [Nat.and_comm ((s &&& 0xFE) ||| b) 1, Nat.and_or_distrib_left,
    Nat.and_comm 1 (s &&& 0xFE), h254, Nat.zero_or, Nat.and_comm 1 b]
  interval_cases b <;> rfl

theorem flip_lsb (s : Nat) : (s ^^^ 1) &&& 1 = (s &&& 1) ^^^ 1 := by
  rw [Nat.and_xor_distrib_right]
  norm_num

theorem writeBits_length (img bits : List Nat) (h : bits.length ≤ img.length) :
    (writeBits img bits).length = img.length := by
  simp only [writeBits, List.length_append, List.length_zipWith, List.length_drop]
  omega

theorem readBits_length (img : List Nat) (n : Nat) :
    (readBits img n).length = min n img.length := by
  simp [readBits]

theorem zipWith_write_lsb (l1 l2 : List Nat) (hb : ∀ b ∈ l2, b ≤ 1)
    (h : l2.length ≤ l1.length) :
    List.zipWith (fun s b => ((s &&& 0xFE) ||| b) &&& 1) l1 l2 = l2 := by
  induction l2 generalizing l1 with
  | nil => simp
  | cons b l2 ih =>
      cases l1 with
      | nil => simp at h
      | cons s l1 =>
          simp only [List.zipWith_cons_cons, List.cons.injEq]
          refine ⟨write_lsb s b (hb b (List.mem_cons_self b l2)), ?_⟩
          exact ih l1 (fun x hx => hb x (List.mem_cons_of_mem b hx))
            (by simpa using Nat.le_of_succ_le_succ h)

theorem readBits_writeBits (img bits : List Nat) (hb : ∀ b ∈ bits, b ≤ 1)
    (hlen : bits.length ≤ img.length) (n : Nat) (hn : n ≤ bits.length) :
    readBits (writeBits img bits) n = bits.take n := by
  unfold readBits writeBits
  rw [List.take_append_of_le_length
      (by rw [List.length_zipWith]; omega),
    List.take_zipWith, List.map_zipWith]
  exact zipWith_write_lsb _ _
    (fun x hx => hb x (List.take_subset n bits hx))
    (by simp; omega)

theorem readBits_writeBits_all (img bits : List Nat) (hb : ∀ b ∈ bits, b ≤ 1)
    (hlen : bits.length ≤ img.length) :
    readBits (writeBits img bits) bits.length = bits := by
  rw [readBits_writeBits img bits hb hlen bits.length le_rfl, List.take_length]

theorem bitsFromBytes_take (d : List Nat) (k : Nat) :
    (bitsFromBytes d).take (8 * k) = bitsFromBytes (d.take k) := by
  induction d generalizing k with
  | nil => simp [bitsFromBytes_nil]
  | cons b d ih =>
      cases k with
      | zero => simp [bitsFromBytes_nil]
      | succ k =>
          rw [List.take_succ_cons, bitsFromBytes_cons, bitsFromBytes_cons]
          have h8 : 8 * (k + 1) = (byteBits b).length + 8 * k := by
            rw [byteBits_length]; ring
          rw [h8, List.take_append, ih]

theorem getD_take_of_lt (l : List Nat) (n i d : Nat) (h : i < n) :
    (l.take n).getD i d = l.getD i d := by
  rw [List.getD_eq_getElem?_getD, List.getD_eq_getElem?_getD, List.getElem?_take,
    if_pos h]

theorem getD_drop (l : List Nat) (n i d : Nat) :
    (l.drop n).getD i d = l.getD (n + i) d := by
  rw [List.getD_eq_getElem?_getD, List.getD_eq_getElem?_getD, List.getElem?_drop]

theorem take_set_of_le (l : List Nat) (n m v : Nat) (h : n ≤ m) :
    (l.set m v).take n = l.take n := by
  rw [List.set_take, List.set_eq_of_length_le]
  exact le_trans (List.length_take_le n l) h

theorem listEnc_injective : Function.Injective listEnc := by
  intro a b
  induction a generalizing b with
  | nil => cases b with
    | nil => intro _; rfl
    | cons y ys => intro h; simp [listEnc] at h
  | cons x xs ih =>
      cases b with
      | nil => intro h; simp [listEnc] at h
      | cons y ys =>
          intro h
          simp only [listEnc, Nat.add_right_cancel_iff, Nat.pair_eq_pair] at h
          rw [h.1, ih h.2]

theorem injKdf_inj (p s p' s' : List Nat) (h : injKdf p s = injKdf p' s') :
    p = p' ∧ s = s' := by
  simp only [injKdf, List.cons.injEq, Nat.pair_eq_pair] at h
  exact ⟨listEnc_injective h.1.1, listEnc_injective h.1.2⟩

theorem trivSeal_length (k n p : List Nat) :
    (trivSeal k n p).length = p.length + 16 := by
  simp [trivSeal]

theorem trivSeal_lt (k n p : List Nat) (hp : ∀ b ∈ p, b < 256) :
    ∀ b ∈ trivSeal k n p, b < 256 := by
  intro b hb
  simp only [trivSeal, List.mem_append, List.mem_replicate] at hb
  rcases hb with h | h
  · exact hp b h
  · omega

theorem trivOpn_trivSeal (k n p : List Nat) : trivOpn k n (trivSeal k n p) = some p := by
  simp [trivOpn, trivSeal]

theorem liteCapacity_le (img : List Nat) (L : Nat)
    (h : (L : Int) ≤ liteCapacity img) : 24 * L + 96 ≤ img.length := by
  unfold liteCapacity at h
  have h24 : (L : Int) + 4 ≤ (img.length : Int) / 24 := by omega
  rw [Int.le_ediv_iff_mul_le (by norm_num)] at h24
  have : ((L : Int) + 4) * 24 ≤ (img.length : Int) := h24
  have hn : (24 * L + 96 : Int) ≤ (img.length : Int) := by linarith
  exact_mod_cast hn

theorem liteFrame_lt (data : List Nat) (hd : ∀ b ∈ data, b < 256) :
    ∀ b ∈ toBE 4 data.length ++ data, b < 256 := by
  intro b hb
  rcases List.mem_append.1 hb with h | h
  · exact toBE_lt 4 data.length b h
  · exact hd b h

theorem liteEmbed_eq (data img : List Nat)
    (hcap : (data.length : Int) ≤ liteCapacity img) (h32 : data.length < 2 ^ 32) :
    liteEmbed data img =
      .ok (writeBits img (bitsFromBytes (toBE 4 data.length ++ data))) := by
  unfold liteEmbed
  rw [if_neg (by omega), if_neg (by omega)]

theorem liteExtract_writeBits (data img : List Nat) (hd : ∀ b ∈ data, b < 256)
    (hcap : (data.length : Int) ≤ liteCapacity img) (h32 : data.length < 2 ^ 32) :
    liteExtract (writeBits img (bitsFromBytes (toBE 4 data.length ++ data))) =
      .ok data := by
  set allData := toBE 4 data.length ++ data with hAllData
  have hlt : ∀ b ∈ allData, b < 256 := liteFrame_lt data hd
  have hbitlen : (bitsFromBytes allData).length = 8 * data.length + 32 := by
    rw [bitsFromBytes_length, hAllData, List.length_append, toBE_length]; ring
  have hsize := liteCapacity_le img data.length hcap
  have hfits : (bitsFromBytes allData).length ≤ img.length := by omega
  have hwlen : (writeBits img (bitsFromBytes allData)).length = img.length :=
    writeBits_length _ _ hfits
  have hones := bitsFromBytes_le_one allData
  have hread32 : readBits (writeBits img (bitsFromBytes allData)) 32 =
      bitsFromBytes (toBE 4 data.length) := by
    rw [readBits_writeBits _ _ hones hfits 32 (by omega)]
    have : (32 : Nat) = 8 * 4 := by norm_num
    rw [this, bitsFromBytes_take, hAllData,
      List.take_left' (toBE_length 4 data.length)]
  have hlenBytes : bytesFromBits (bitsFromBytes (toBE 4 data.length)) =
      toBE 4 data.length :=
    bytesFromBits_bitsFromBytes _ (toBE_lt 4 data.length)
  have hfrom : fromBE (toBE 4 data.length) = data.length :=
    fromBE_toBE 4 data.length (by norm_num at h32 ⊢; omega)
  unfold liteExtract
  simp only [hread32, hlenBytes, toBE_length, hfrom]
  rw [if_neg (by norm_num), if_neg (by rw [liteCapacity, hwlen]; unfold liteCapacity at hcap; omega)]
  congr 1
  rw [show data.length * 8 + 4 * 8 = (bitsFromBytes allData).length by omega,
    readBits_writeBits_all _ _ hones hfits, hAllData, bitsFromBytes_append,
    show (4 * 8 : Nat) = (bitsFromBytes (toBE 4 data.length)).length by
      rw [bitsFromBytes_length, toBE_length],
    List.drop_left, bytesFromBits_bitsFromBytes data hd]

theorem prodHeader_length (L s n : Nat) : (prodHeader L s n).length = 9 := by
  simp [prodHeader, toBE_length]

theorem prodHeader_lt (L s n : Nat) : ∀ b ∈ prodHeader L s n, b < 256 := by
  intro b hb
  simp only [prodHeader, List.append_assoc, List.cons_append, List.nil_append,
    List.mem_cons, List.mem_append] at hb
  rcases hb with rfl | h | h | h
  · norm_num
  · exact toBE_lt 4 L b h
  · exact toBE_lt 2 s b h
  · exact toBE_lt 2 n b h

theorem prodHeader_getD0 (L s n : Nat) : (prodHeader L s n).getD 0 0 = 1 := rfl

theorem prodHeader_drop1 (L s n : Nat) :
    (prodHeader L s n).drop 1 = toBE 4 L ++ toBE 2 s ++ toBE 2 n := by
  simp [prodHeader]

theorem prodHeader_dataLen (L s n : Nat) (hL : L < 2 ^ 32) :
    fromBE (((prodHeader L s n).drop 1).take 4) = L := by
  rw [prodHeader_drop1, List.append_assoc,
    List.take_left' (toBE_length 4 L), fromBE_toBE 4 L (by norm_num at hL ⊢; omega)]

theorem prodHeader_saltLen (L s n : Nat) (hs : s < 2 ^ 16) :
    fromBE (((prodHeader L s n).drop 5).take 2) = s := by
  have h5 : prodHeader L s n = ([1] ++ toBE 4 L) ++ (toBE 2 s ++ toBE 2 n) := by
    simp [prodHeader]
  rw [h5, List.drop_left' (by simp [toBE_length]),
    List.take_left' (toBE_length 2 s), fromBE_toBE 2 s (by norm_num at hs ⊢; omega)]

theorem prodHeader_nonceLen (L s n : Nat) (hn : n < 2 ^ 16) :
    fromBE (((prodHeader L s n).drop 7).take 2) = n := by
  have h7 : prodHeader L s n = ([1] ++ toBE 4 L ++ toBE 2 s) ++ toBE 2 n := by
    simp [prodHeader]
  rw [h7, List.drop_left' (by simp [toBE_length]),
    List.take_of_length_le (by rw [toBE_length]),
    fromBE_toBE 2 n (by norm_num at hn ⊢; omega)]

theorem prodFrame_length (salt nonce ct : List Nat) (L : Nat) :
    (prodFrame salt nonce ct L).length =
      9 + salt.length + nonce.length + ct.length := by
  simp only [prodFrame, List.append_assoc, List.length_append, prodHeader_length]
  omega

theorem prodFrame_lt (salt nonce ct : List Nat) (L : Nat)
    (hs : ∀ b ∈ salt, b < 256) (hn : ∀ b ∈ nonce, b < 256)
    (hc : ∀ b ∈ ct, b < 256) : ∀ b ∈ prodFrame salt nonce ct L, b < 256 := by
  intro b hb
  simp only [prodFrame, List.append_assoc, List.mem_append] at hb
  rcases hb with h | h | h | h
  · exact prodHeader_lt _ _ _ b h
  · exact hs b h
  · exact hn b h
  · exact hc b h

theorem prodFrame_take9 (salt nonce ct : List Nat) (L : Nat) :
    (prodFrame salt nonce ct L).take 9 = prodHeader L salt.length nonce.length := by
  simp only [prodFrame, List.append_assoc]
  exact List.take_left' (prodHeader_length _ _ _)

theorem prodFrame_salt (salt nonce ct : List Nat) (L : Nat) :
    ((prodFrame salt nonce ct L).drop 9).take salt.length = salt := by
  simp only [prodFrame, List.append_assoc]
  rw [List.drop_left' (prodHeader_length _ _ _), List.take_left' rfl]

theorem prodFrame_nonce (salt nonce ct : List Nat) (L : Nat) :
    ((prodFrame salt nonce ct L).drop (9 + salt.length)).take nonce.length =
      nonce := by
  have h : prodFrame salt nonce ct L =
      (prodHeader L salt.length nonce.length ++ salt) ++ (nonce ++ ct) := by
    simp [prodFrame]
  rw [h, List.drop_left' (by simp [prodHeader_length]), List.take_left' rfl]

theorem prodFrame_ct (salt nonce ct : List Nat) (L : Nat) :
    (prodFrame salt nonce ct L).drop (9 + salt.length + nonce.length) = ct := by
  have h : prodFrame salt nonce ct L =
      (prodHeader L salt.length nonce.length ++ salt ++ nonce) ++ ct := by
    simp [prodFrame]
  rw [h, List.drop_left' (by simp [prodHeader_length]; omega)]

theorem prodCapacity_le (img : List Nat) (L : Nat)
    (h : (L : Int) ≤ prodCapacity img) : 24 * L + 1272 ≤ img.length := by
  unfold prodCapacity at h
  have h24 : (L : Int) + 53 ≤ (img.length : Int) / 24 := by omega
  rw [Int.le_ediv_iff_mul_le (by norm_num)] at h24
  have hn : (24 * L + 1272 : Int) ≤ (img.length : Int) := by linarith
  exact_mod_cast hn

theorem prodEmbed_eq (kdf : List Nat → List Nat → List Nat)
    (sealFn : List Nat → List Nat → List Nat → List Nat)
    (pw img data salt nonce : List Nat) (hpw : 12 ≤ pw.length)
    (hcap : (data.length : Int) ≤ prodCapacity img)
    (h32 : data.length < 2 ^ 32) :
    prodEmbed kdf sealFn pw img data salt nonce =
      .ok (writeBits img (bitsFromBytes
        (prodFrame salt nonce (sealFn (kdf pw salt) nonce data) data.length))) := by
  unfold prodEmbed prodFrame
  rw [if_neg (by omega), if_neg (by omega), if_neg (by omega)]

/-- Extraction from a well-formed protected frame reaches the decryption
step with exactly the embedded salt, nonce and ciphertext. -/
theorem prodExtract_frame (kdf : List Nat → List Nat → List Nat)
    (opn : List Nat → List Nat → List Nat → Option (List Nat))
    (pw img salt nonce ct : List Nat) (L : Nat)
    (hpw : 12 ≤ pw.length)
    (hsalt : salt.length = 16) (hnonce : nonce.length = 12)
    (hslt : ∀ b ∈ salt, b < 256) (hnlt : ∀ b ∈ nonce, b < 256)
    (hclt : ∀ b ∈ ct, b < 256) (hct : ct.length = L + 16)
    (hL : 0 < L) (hLcap : (L : Int) ≤ prodCapacity img) (h32 : L < 2 ^ 32) :
    prodExtract kdf opn pw (writeBits img (bitsFromBytes (prodFrame salt nonce ct L))) =
      match opn (kdf pw salt) nonce ct with
      | none => .error .decryptFailed
      | some plaintext =>
          if plaintext.length ≠ L then .error .lengthMismatch else .ok plaintext := by
  have hflen : (prodFrame salt nonce ct L).length = 53 + L := by
    rw [prodFrame_length, hsalt, hnonce, hct]; omega
  have hlt : ∀ b ∈ prodFrame salt nonce ct L, b < 256 :=
    prodFrame_lt salt nonce ct L hslt hnlt hclt
  have hbitlen : (bitsFromBytes (prodFrame salt nonce ct L)).length = 8 * (53 + L) := by
    rw [bitsFromBytes_length, hflen]
  have hsize := prodCapacity_le img L hLcap
  have hfits : (bitsFromBytes (prodFrame salt nonce ct L)).length ≤ img.length := by
    omega
  have hones := bitsFromBytes_le_one (prodFrame salt nonce ct L)
  set carrier := writeBits img (bitsFromBytes (prodFrame salt nonce ct L)) with hc
  have hwlen : carrier.length = img.length := writeBits_length _ _ hfits
  have hread9 : readBits carrier (9 * 8) =
      bitsFromBytes (prodHeader L salt.length nonce.length) := by
    rw [hc, readBits_writeBits _ _ hones hfits (9 * 8) (by omega),
      show (9 * 8 : Nat) = 8 * 9 by ring, bitsFromBytes_take, prodFrame_take9]
  have hheader : bytesFromBits (readBits carrier (9 * 8)) =
      prodHeader L salt.length nonce.length := by
    rw [hread9]
    exact bytesFromBits_bitsFromBytes _ (prodHeader_lt _ _ _)
  have hreadAll : readBits carrier ((9 + salt.length + nonce.length + L + 16) * 8) =
      bitsFromBytes (prodFrame salt nonce ct L) := by
    rw [hc, show (9 + salt.length + nonce.length + L + 16) * 8 =
        (bitsFromBytes (prodFrame salt nonce ct L)).length by
      rw [hbitlen, hsalt, hnonce]; ring]
    exact readBits_writeBits_all _ _ hones hfits
  rw [hsalt, hnonce] at hheader hreadAll
  have hcapc : prodCapacity carrier = prodCapacity img := by
    unfold prodCapacity; rw [hwlen]
  have hS : ((prodFrame salt nonce ct L).drop 9).take 16 = salt := by
    rw [← hsalt]; exact prodFrame_salt salt nonce ct L
  have hN : ((prodFrame salt nonce ct L).drop (9 + 16)).take 12 = nonce := by
    rw [show (9 + 16 : Nat) = 9 + salt.length by rw [hsalt], ← hnonce]
    exact prodFrame_nonce salt nonce ct L
  have hC : (prodFrame salt nonce ct L).drop (9 + 16 + 12) = ct := by
    rw [show (9 + 16 + 12 : Nat) = 9 + salt.length + nonce.length by
      rw [hsalt, hnonce]]
    exact prodFrame_ct salt nonce ct L
  unfold prodExtract
  rw [if_neg (by omega)]
  simp only [hheader, prodHeader_length, prodHeader_getD0,
    prodHeader_dataLen L 16 12 h32, prodHeader_saltLen L 16 12 (by norm_num),
    prodHeader_nonceLen L 16 12 (by norm_num), hcapc]
  rw [if_neg (by norm_num), if_neg (by norm_num),
    if_neg (not_not_intro
      ⟨by norm_num, by norm_num, by norm_num, by norm_num, hL, hLcap⟩)]
  simp only [hreadAll, bytesFromBits_bitsFromBytes _ hlt, hS, hN, hC]

set_option maxRecDepth 4096 in
theorem byteToVariationSelector_eq (b : Nat) (hb : b < 256) :
    byteToVariationSelector b = .ok (vsFwd b) := by
  unfold byteToVariationSelector vsFwd
  rw [if_neg (by omega)]
  split <;> rfl

set_option maxRecDepth 4096 in
theorem variationSelectorToByte_vsFwd (b : Nat) (hb : b < 256) :
    variationSelectorToByte (vsFwd b) = .ok b := by
  unfold variationSelectorToByte vsFwd
  split
  · rw [if_pos (by omega)]
    simp only [Except.ok.injEq]
    omega
  · rw [if_neg (by omega), if_pos (by omega)]
    simp only [Except.ok.injEq]
    omega

theorem mapM_vsFwd (l : List Nat) (hl : ∀ b ∈ l, b < 256) :
    l.mapM byteToVariationSelector = .ok (l.map vsFwd) := by
  induction l with
  | nil => rfl
  | cons b l ih =>
      rw [List.mapM_cons, byteToVariationSelector_eq b (hl b (List.mem_cons_self b l)),
        ih (fun x hx => hl x (List.mem_cons_of_mem b hx))]
      rfl

theorem mapM_vsFwd_inv (l : List Nat) (hl : ∀ b ∈ l, b < 256) :
    (l.map vsFwd).mapM variationSelectorToByte = .ok l := by
  induction l with
  | nil => rfl
  | cons b l ih =>
      rw [List.map_cons, List.mapM_cons,
        variationSelectorToByte_vsFwd b (hl b (List.mem_cons_self b l)),
        ih (fun x hx => hl x (List.mem_cons_of_mem b hx))]
      rfl

theorem emojiEmbed_eq (anchor : Nat) (data : List Nat) (hd : ∀ b ∈ data, b < 256)
    (h32 : data.length < 2 ^ 32) :
    emojiEmbed anchor data =
      .ok (anchor :: (toBE 4 data.length ++ data).map vsFwd) := by
  unfold emojiEmbed
  rw [if_neg (by omega), mapM_vsFwd _ (liteFrame_lt data hd)]

theorem emojiExtract_embedded (anchor : Nat) (data : List Nat)
    (hd : ∀ b ∈ data, b < 256) (h32 : data.length < 2 ^ 32) :
    emojiExtract (anchor :: (toBE 4 data.length ++ data).map vsFwd) = .ok data := by
  unfold emojiExtract
  simp only [List.drop_succ_cons, List.drop_zero]
  rw [mapM_vsFwd_inv _ (liteFrame_lt data hd)]
  have hlen : (toBE 4 data.length ++ data).length = 4 + data.length := by
    simp [toBE_length]
  show (if (toBE 4 data.length ++ data).length < 4 then
      Except.error EmojiErr.dataTooShort
    else if (toBE 4 data.length ++ data).length - 4 <
        fromBE ((toBE 4 data.length ++ data).take 4) then
      Except.error EmojiErr.badLengthField
    else Except.ok (((toBE 4 data.length ++ data).drop 4).take
      (fromBE ((toBE 4 data.length ++ data).take 4)))) = Except.ok data
  rw [if_neg (by omega), List.take_left' (toBE_length 4 data.length),
    fromBE_toBE 4 data.length (by norm_num at h32 ⊢; omega),
    if_neg (by omega), List.drop_left' (toBE_length 4 data.length),
    List.take_of_length_le le_rfl]

set_option maxRecDepth 16384 in
theorem packByte_set_flip : ∀ b < 256, ∀ j < 8,
    packByte ((byteBits b).set j ((byteBits b).getD j 0 ^^^ 1)) =
      b ^^^ 2 ^ (7 - j) := by decide

theorem set_append_left (l1 l2 : List Nat) (i v : Nat) (h : i < l1.length) :
    (l1 ++ l2).set i v = l1.set i v ++ l2 := by
  rw [List.set_append, if_pos h]

theorem set_append_right (l1 l2 : List Nat) (i v : Nat) (h : l1.length ≤ i) :
    (l1 ++ l2).set i v = l1 ++ l2.set (i - l1.length) v := by
  rw [List.set_append, if_neg (by omega)]

theorem xor_pow_ne (b j : Nat) : b ^^^ 2 ^ j ≠ b := by
  intro h
  have h2 : b ^^^ (b ^^^ 2 ^ j) = b ^^^ b := by rw [h]
  rw [← Nat.xor_assoc, Nat.xor_self, Nat.zero_xor] at h2
  simp at h2

theorem getD_bitsFromBytes (d : List Nat) (m : Nat) (hm : m < 8 * d.length) :
    (bitsFromBytes d).getD m 0 = (byteBits (d.getD (m / 8) 0)).getD (m % 8) 0 := by
  induction d generalizing m with
  | nil => simp at hm
  | cons b d ih =>
      rw [bitsFromBytes_cons]
      by_cases h8 : m < 8
      · rw [List.getD_append _ _ _ _ (by rw [byteBits_length]; omega),
          Nat.div_eq_of_lt h8, Nat.mod_eq_of_lt h8]
        rfl
      · rw [List.getD_append_right _ _ _ _ (by rw [byteBits_length]; omega),
          byteBits_length]
        have hrec := ih (m - 8) (by simp at hm; omega)
        rw [hrec, show (m - 8) / 8 = m / 8 - 1 by omega,
          show (m - 8) % 8 = m % 8 by omega]
        have hpos : 0 < m / 8 := by omega
        rw [show (b :: d).getD (m / 8) 0 = d.getD (m / 8 - 1) 0 by
          rcases Nat.exists_eq_add_of_lt hpos with ⟨k, hk⟩
          rw [show m / 8 = k + 1 by omega]
          simp]

/-- Flipping bit `m` of the unpacked bit stream of `d` repacks to `d` with
bit `7 - m % 8` of byte `m / 8` flipped. -/
theorem bytesFromBits_flip (d : List Nat) (hd : ∀ b ∈ d, b < 256) (m : Nat)
    (hm : m < 8 * d.length) :
    bytesFromBits ((bitsFromBytes d).set m ((bitsFromBytes d).getD m 0 ^^^ 1)) =
      d.take (m / 8) ++ (d.getD (m / 8) 0 ^^^ 2 ^ (7 - m % 8)) :: d.drop (m / 8 + 1) := by
  induction d generalizing m with
  | nil => simp at hm
  | cons b d ih =>
      have hb : b < 256 := hd b (List.mem_cons_self b d)
      have hd' : ∀ x ∈ d, x < 256 := fun x hx => hd x (List.mem_cons_of_mem b hx)
      rw [bitsFromBytes_cons]
      by_cases h8 : m < 8
      · rw [List.getD_append _ _ _ _ (by rw [byteBits_length]; omega),
          set_append_left _ _ _ _ (by rw [byteBits_length]; omega)]
        have hsetlen : ((byteBits b).set m ((byteBits b).getD m 0 ^^^ 1)).length = 8 := by
          rw [List.length_set, byteBits_length]
        rw [bytesFromBits_of_mul8 _ (by
            rw [List.length_append, hsetlen, bitsFromBytes_length]; omega),
          bytesFromBitsAux_cons8 _ _ hsetlen,
          packByte_set_flip b hb m h8]
        have haux : bytesFromBitsAux (bitsFromBytes d) = d := by
          have := bytesFromBitsAux_bitsFromBytes d hd' []
          simpa [bytesFromBitsAux] using this
        rw [haux, Nat.div_eq_of_lt h8, Nat.mod_eq_of_lt h8]
        simp
      · rw [List.getD_append_right _ _ _ _ (by rw [byteBits_length]; omega),
          set_append_right _ _ _ _ (by rw [byteBits_length]; omega),
          byteBits_length]
        have hsetlen8 : ((bitsFromBytes d).set (m - 8)
            ((bitsFromBytes d).getD (m - 8) 0 ^^^ 1)).length = 8 * d.length := by
          rw [List.length_set, bitsFromBytes_length]
        rw [bytesFromBits_of_mul8 _ (by
            rw [List.length_append, byteBits_length, hsetlen8]; omega),
          bytesFromBitsAux_cons8 _ _ (byteBits_length b),
          packByte_byteBits b hb]
        have hrec := ih hd' (m - 8) (by simp at hm; omega)
        rw [bytesFromBits_of_mul8 _ (by rw [hsetlen8]; omega)] at hrec
        rw [hrec]
        have hpos : 0 < m / 8 := by omega
        rcases Nat.exists_eq_add_of_lt hpos with ⟨k, hk⟩
        have hdiv : m / 8 = k + 1 := by omega
        have hsub : (m - 8) / 8 = k := by omega
        have hmod : (m - 8) % 8 = m % 8 := by omega
        rw [hsub, hmod, hdiv]
        simp

theorem getD_readBits (img : List Nat) (n m : Nat) (hm : m < n) :
    (readBits img n).getD m 0 = img.getD m 0 &&& 1 := by
  unfold readBits
  rw [List.getD_eq_getElem?_getD, List.getElem?_map, List.getElem?_take, if_pos hm,
    List.getD_eq_getElem?_getD]
  cases img[m]? <;> simp

theorem readBits_writeBits_flip (img bits : List Nat) (hb : ∀ b ∈ bits, b ≤ 1)
    (hlen : bits.length ≤ img.length) (m : Nat) (hm : m < bits.length) :
    readBits ((writeBits img bits).set m ((writeBits img bits).getD m 0 ^^^ 1))
        bits.length =
      bits.set m (bits.getD m 0 ^^^ 1) := by
  set W := writeBits img bits with hW
  have hlsb : bits.getD m 0 = W.getD m 0 &&& 1 := by
    conv_lhs => rw [← readBits_writeBits_all img bits hb hlen]
    exact getD_readBits W bits.length m hm
  show ((W.set m (W.getD m 0 ^^^ 1)).take bits.length).map (fun s => s &&& 1) =
    bits.set m (bits.getD m 0 ^^^ 1)
  rw [List.set_take, List.map_set]
  have hr : (W.take bits.length).map (fun s => s &&& 1) = bits :=
    readBits_writeBits_all img bits hb hlen
  rw [hr, flip_lsb, ← hlsb]

/-- Extraction from a protected carrier with one flipped body-region LSB
reaches the decryption step, and the salt/nonce/ciphertext triple it
hands to the AEAD is not the genuine one. -/
theorem prodExtract_frame_flip (kdf : List Nat → List Nat → List Nat)
    (opn : List Nat → List Nat → List Nat → Option (List Nat))
    (pw img salt nonce ct : List Nat) (L m : Nat)
    (hpw : 12 ≤ pw.length)
    (hsalt : salt.length = 16) (hnonce : nonce.length = 12)
    (hslt : ∀ b ∈ salt, b < 256) (hnlt : ∀ b ∈ nonce, b < 256)
    (hclt : ∀ b ∈ ct, b < 256) (hct : ct.length = L + 16)
    (hL : 0 < L) (hLcap : (L : Int) ≤ prodCapacity img) (h32 : L < 2 ^ 32)
    (hm72 : 72 ≤ m) (hm : m < 8 * (53 + L)) :
    ∃ salt2 nonce2 ct2,
      prodExtract kdf opn pw
        ((writeBits img (bitsFromBytes (prodFrame salt nonce ct L))).set m
          ((writeBits img (bitsFromBytes (prodFrame salt nonce ct L))).getD m 0 ^^^ 1)) =
        (match opn (kdf pw salt2) nonce2 ct2 with
          | none => Except.error ProdErr.decryptFailed
          | some plaintext =>
              if plaintext.length ≠ L then Except.error ProdErr.lengthMismatch
              else Except.ok plaintext)
      ∧ ¬(salt2 = salt ∧ nonce2 = nonce ∧ ct2 = ct) := by
  have hflen : (prodFrame salt nonce ct L).length = 53 + L := by
    rw [prodFrame_length, hsalt, hnonce, hct]; omega
  have hlt : ∀ b ∈ prodFrame salt nonce ct L, b < 256 :=
    prodFrame_lt salt nonce ct L hslt hnlt hclt
  have hbitlen : (bitsFromBytes (prodFrame salt nonce ct L)).length = 8 * (53 + L) := by
    rw [bitsFromBytes_length, hflen]
  have hsize := prodCapacity_le img L hLcap
  have hfits : (bitsFromBytes (prodFrame salt nonce ct L)).length ≤ img.length := by
    omega
  have hones := bitsFromBytes_le_one (prodFrame salt nonce ct L)
  set frame := prodFrame salt nonce ct L with hframe
  set W := writeBits img (bitsFromBytes frame) with hWdef
  set T := W.set m (W.getD m 0 ^^^ 1) with hTdef
  have hwlen : W.length = img.length := writeBits_length _ _ hfits
  have hTlen : T.length = img.length := by rw [hTdef, List.length_set, hwlen]
  have hmbit : m < (bitsFromBytes frame).length := by omega
  -- the header region is untouched
  have hread9 : readBits T (9 * 8) = bitsFromBytes (prodHeader L 16 12) := by
    show ((T.take 72).map (fun s => s &&& 1)) = _
    rw [hTdef, take_set_of_le _ _ _ _ (by omega)]
    have h9 : readBits W (9 * 8) = bitsFromBytes (frame.take 9) := by
      rw [hWdef, readBits_writeBits _ _ hones hfits (9 * 8) (by omega),
        show (9 * 8 : Nat) = 8 * 9 by ring, bitsFromBytes_take]
    have := h9
    rw [hframe, prodFrame_take9, hsalt, hnonce] at this
    exact this
  have hheader : bytesFromBits (readBits T (9 * 8)) = prodHeader L 16 12 := by
    rw [hread9]
    exact bytesFromBits_bitsFromBytes _ (prodHeader_lt _ _ _)
  -- the full frame read recovers the frame with byte m/8 bit-flipped
  have hreadAll : readBits T ((9 + 16 + 12 + L + 16) * 8) =
      (bitsFromBytes frame).set m ((bitsFromBytes frame).getD m 0 ^^^ 1) := by
    rw [show (9 + 16 + 12 + L + 16) * 8 = (bitsFromBytes frame).length by
      rw [hbitlen]; ring]
    exact readBits_writeBits_flip img (bitsFromBytes frame) hones hfits m hmbit
  have hframe2 : bytesFromBits ((bitsFromBytes frame).set m
      ((bitsFromBytes frame).getD m 0 ^^^ 1)) =
      frame.take (m / 8) ++ (frame.getD (m / 8) 0 ^^^ 2 ^ (7 - m % 8)) ::
        frame.drop (m / 8 + 1) :=
    bytesFromBits_flip frame hlt m (by omega)
  set frame2 := frame.take (m / 8) ++ (frame.getD (m / 8) 0 ^^^ 2 ^ (7 - m % 8)) ::
    frame.drop (m / 8 + 1) with hframe2def
  have hi9 : 9 ≤ m / 8 := by omega
  have hiLT : m / 8 < 53 + L := by omega
  refine ⟨(frame2.drop 9).take 16, (frame2.drop (9 + 16)).take 12,
    frame2.drop (9 + 16 + 12), ?_, ?_⟩
  · -- the extraction pipeline on the tampered carrier
    have hcapc : prodCapacity T = prodCapacity img := by
      unfold prodCapacity; rw [hTlen]
    unfold prodExtract
    rw [if_neg (by omega)]
    simp only [hheader, prodHeader_length, prodHeader_getD0,
      prodHeader_dataLen L 16 12 h32, prodHeader_saltLen L 16 12 (by norm_num),
      prodHeader_nonceLen L 16 12 (by norm_num), hcapc]
    rw [if_neg (by norm_num), if_neg (by norm_num),
      if_neg (not_not_intro
        ⟨by norm_num, by norm_num, by norm_num, by norm_num, hL, hLcap⟩)]
    simp only [hreadAll, hframe2]
  · -- the recovered triple is not the genuine one
    rintro ⟨hs2, hn2, hc2⟩
    have hlen2 : frame2.length = 53 + L := by
      rw [hframe2def]
      simp only [List.length_append, List.length_cons, List.length_take,
        List.length_drop, hflen]
      omega
    have hpre : frame2.take 9 = frame.take 9 := by
      rw [hframe2def, List.take_append_of_le_length
        (by rw [List.length_take, hflen]; omega), List.take_take,
        min_eq_left hi9]
    have hfull : frame2 = frame := by
      have hdd2 : (frame2.drop 9).drop 16 = frame2.drop (9 + 16) := by
        rw [List.drop_drop]
      have hdd3 : (frame2.drop (9 + 16)).drop 12 = frame2.drop (9 + 16 + 12) := by
        rw [List.drop_drop]
      calc frame2 = frame2.take 9 ++ frame2.drop 9 :=
              (List.take_append_drop 9 frame2).symm
        _ = frame2.take 9 ++ ((frame2.drop 9).take 16 ++ frame2.drop (9 + 16)) := by
              rw [← hdd2, List.take_append_drop, List.take_append_drop,
                List.take_append_drop]
        _ = frame2.take 9 ++ ((frame2.drop 9).take 16 ++
              ((frame2.drop (9 + 16)).take 12 ++ frame2.drop (9 + 16 + 12))) := by
              rw [← hdd3, List.take_append_drop]
        _ = frame.take 9 ++ (salt ++ (nonce ++ ct)) := by
              rw [hpre, hs2, hn2, hc2]
        _ = frame := by
              rw [hframe, prodFrame_take9, hsalt, hnonce]
              show prodHeader L 16 12 ++ (salt ++ (nonce ++ ct)) = _
              rw [← hsalt, ← hnonce]
              simp [prodFrame]
    have hne : frame2.getD (m / 8) 0 ≠ frame.getD (m / 8) 0 := by
      rw [hframe2def, List.getD_append_right _ _ _ _
        (by rw [List.length_take, hflen]; omega)]
      rw [List.length_take, hflen, min_eq_left (by omega), Nat.sub_self]
      exact fun h => xor_pow_ne (frame.getD (m / 8) 0) (7 - m % 8) (by simpa using h)
    exact hne (by rw [hfull])

theorem idealOpn_only (k n c p : List Nat) (h : idealOpn k n c = some p) :
    k = injKdf wPw wSalt ∧ n = wNonce ∧ c = trivSeal (injKdf wPw wSalt) wNonce wData := by
  unfold idealOpn at h
  split at h
  · next hc => exact hc
  · exact absurd h (by simp)

theorem getD_zipWith (f : Nat → Nat → Nat) (l1 l2 : List Nat) (i : Nat)
    (h1 : i < l1.length) (h2 : i < l2.length) :
    (List.zipWith f l1 l2).getD i 0 = f (l1.getD i 0) (l2.getD i 0) := by
  induction l1 generalizing l2 i with
  | nil => simp at h1
  | cons a l1 ih =>
      cases l2 with
      | nil => simp at h2
      | cons b l2 =>
          cases i with
          | zero => rfl
          | succ i =>
              simp only [List.zipWith_cons_cons, List.getD_cons_succ]
              exact ih l2 i (by simpa using h1) (by simpa using h2)

theorem byteBits_getD (b j : Nat) (hj : j < 8) :
    (byteBits b).getD j 0 = b >>> (7 - j) &&& 1 := by
  interval_cases j <;> rfl

/-- C5: for every pixel carrier and bit sequence no longer than the
sample count, `_embed_bits` returns a carrier of the same length whose
sample `i` is `(original & 0xFE) | bits[i]` for `i < len(bits)` and is
the untouched original sample for `i ≥ len(bits)`.  (The Python code
operates on `image.copy()`; the model is a pure function returning a
fresh list, so the caller's carrier is unchanged by construction.) -/
theorem C5_write_symbols : ∀ img bits : List Nat, bits.length ≤ img.length →
    (writeBits img bits).length = img.length
    ∧ (∀ i, i < bits.length →
        (writeBits img bits).getD i 0 = (img.getD i 0 &&& 0xFE) ||| bits.getD i 0)
    ∧ ∀ i, bits.length ≤ i → (writeBits img bits).getD i 0 = img.getD i 0 := by
  intro img bits hlen
  refine ⟨writeBits_length img bits hlen, ?_, ?_⟩
  · intro i hi
    unfold writeBits
    rw [List.getD_append _ _ _ _ (by rw [List.length_zipWith]; omega),
      getD_zipWith _ _ _ _ (by omega) hi]
  · intro i hi
    by_cases him : i < img.length
    · unfold writeBits
      rw [List.getD_append_right _ _ _ _ (by rw [List.length_zipWith]; omega),
        List.length_zipWith, min_eq_right hlen, getD_drop,
        show bits.length + (i - bits.length) = i by omega]
    · rw [List.getD_eq_default _ _ (by rw [writeBits_length img bits hlen]; omega),
        List.getD_eq_default _ _ (by omega)]

/-- C5 witness at a concrete carrier and bit list. -/
theorem C5_witness :
    (writeBits [6, 7] [1]).length = [6, 7].length
    ∧ (writeBits [6, 7] [1]).getD 0 0 = ([6, 7].getD 0 0 &&& 0xFE) ||| [1].getD 0 0
    ∧ (writeBits [6, 7] [1]).getD 1 0 = [6, 7].getD 1 0 := by
  obtain ⟨h1, h2, h3⟩ := C5_write_symbols [6, 7] [1] (by decide)
  exact ⟨h1, h2 0 (by decide), h3 1 (by decide)⟩

theorem except_bind_ok {ε α β : Type} (a : α) (f : α → Except ε β) :
    (Except.ok a : Except ε α).bind f = f a := rfl

theorem btv_lo (b : Nat) (h : b < 16) :
    byteToVariationSelector b = .ok (0xFE00 + b) := by
  unfold byteToVariationSelector
  rw [if_neg (by omega), if_pos h]

theorem btv_hi (b : Nat) (h1 : 16 ≤ b) (h2 : b ≤ 255) :
    byteToVariationSelector b = .ok (0xE0100 + (b - 16)) := by
  unfold byteToVariationSelector
  rw [if_neg (by omega), if_neg (by omega)]

theorem vsb_lo (cp : Nat) (h : 0xFE00 ≤ cp ∧ cp ≤ 0xFE0F) :
    variationSelectorToByte cp = .ok (cp - 0xFE00) := by
  unfold variationSelectorToByte
  rw [if_pos h]

theorem vsb_hi (cp : Nat) (h1 : ¬(0xFE00 ≤ cp ∧ cp ≤ 0xFE0F))
    (h2 : 0xE0100 ≤ cp ∧ cp ≤ 0xE01EF) :
    variationSelectorToByte cp = .ok (cp - 0xE0100 + 16) := by
  unfold variationSelectorToByte
  rw [if_neg h1, if_pos h2]

/-- C7: the byte-to-variation-selector map sends 0–15 to U+FE00+value
and 16–255 to U+E0100+(value−16); the inverse map rejects every code
point outside the two ranges, and inside the ranges forward and inverse
maps undo each other. -/
theorem C7_selector_map :
    (∀ b, b < 16 → byteToVariationSelector b = .ok (0xFE00 + b))
    ∧ (∀ b, 16 ≤ b → b ≤ 255 → byteToVariationSelector b = .ok (0xE0100 + (b - 16)))
    ∧ (∀ cp, ¬(0xFE00 ≤ cp ∧ cp ≤ 0xFE0F) → ¬(0xE0100 ≤ cp ∧ cp ≤ 0xE01EF) →
        variationSelectorToByte cp = .error .invalidSelector)
    ∧ (∀ b, b ≤ 255 → (byteToVariationSelector b).bind variationSelectorToByte = .ok b)
    ∧ (∀ cp, (0xFE00 ≤ cp ∧ cp ≤ 0xFE0F) ∨ (0xE0100 ≤ cp ∧ cp ≤ 0xE01EF) →
        (variationSelectorToByte cp).bind byteToVariationSelector = .ok cp) := by
  refine ⟨btv_lo, btv_hi, ?_, ?_, ?_⟩
  · intro cp h1 h2
    unfold variationSelectorToByte
    rw [if_neg h1, if_neg h2]
  · intro b hb
    rw [byteToVariationSelector_eq b (by omega), except_bind_ok]
    exact variationSelectorToByte_vsFwd b (by omega)
  · intro cp hcp
    rcases hcp with h | h
    · rw [vsb_lo cp h, except_bind_ok, btv_lo _ (by omega)]
      simp only [Except.ok.injEq]
      omega
    · rw [vsb_hi cp (by omega) h, except_bind_ok, btv_hi _ (by omega) (by omega)]
      simp only [Except.ok.injEq]
      omega

/-- C7 witness at concrete byte values and code points. -/
theorem C7_witness :
    byteToVariationSelector 5 = .ok 0xFE05
    ∧ byteToVariationSelector 200 = .ok (0xE0100 + 184)
    ∧ variationSelectorToByte 65 = .error .invalidSelector
    ∧ (byteToVariationSelector 200).bind variationSelectorToByte = .ok 200
    ∧ (variationSelectorToByte 0xE0105).bind byteToVariationSelector = .ok 0xE0105 := by
  obtain ⟨h1, h2, h3, h4, h5⟩ := C7_selector_map
  exact ⟨h1 5 (by decide), by rw [h2 200 (by decide) (by decide)],
    h3 65 (by decide) (by decide), h4 200 (by decide),
    h5 0xE0105 (by decide)⟩

/-- C8: `_bits_from_bytes` yields exactly `8 * len(d)` bits, MSB-first
within each byte, and `_bytes_from_bits` inverts it on byte-valued
input; both are Lean functions, hence deterministic and total. -/
theorem C8_bit_codec : ∀ d : List Nat, (∀ b ∈ d, b < 256) →
    (bitsFromBytes d).length = 8 * d.length
    ∧ bytesFromBits (bitsFromBytes d) = d
    ∧ ∀ i j, i < d.length → j < 8 →
        (bitsFromBytes d).getD (8 * i + j) 0 = d.getD i 0 >>> (7 - j) &&& 1 := by
  intro d hd
  refine ⟨bitsFromBytes_length d, bytesFromBits_bitsFromBytes d hd, ?_⟩
  intro i j hi hj
  rw [getD_bitsFromBytes d (8 * i + j) (by omega),
    show (8 * i + j) / 8 = i by omega, show (8 * i + j) % 8 = j by omega,
    byteBits_getD _ _ hj]

/-- C8 witness at a concrete two-byte input. -/
theorem C8_witness :
    (bitsFromBytes [3, 255]).length = 8 * [3, 255].length
    ∧ bytesFromBits (bitsFromBytes [3, 255]) = [3, 255]
    ∧ (bitsFromBytes [3, 255]).getD (8 * 0 + 6) 0 = [3, 255].getD 0 0 >>> (7 - 6) &&& 1 := by
  obtain ⟨h1, h2, h3⟩ := C8_bit_codec [3, 255] (by decide)
  exact ⟨h1, h2, h3 0 6 (by decide) (by decide)⟩

/-- C9: whenever plain-mode extract succeeds on a carrier with at least
32 samples, the returned byte count equals exactly the 32-bit big-endian
length prefix decoded from the carrier's first 32 LSBs. -/
theorem C9_plain_extract_length : ∀ img d : List Nat, 32 ≤ img.length →
    liteExtract img = .ok d →
    d.length = fromBE (bytesFromBits (readBits img 32)) := by
  intro img d himg h
  unfold liteExtract at h
  split at h
  · exact absurd h (by simp)
  · split at h
    next hlen4 hcap =>
      exact absurd h (by simp)
    next hlen4 hcap =>
      injection h with h2
      subst h2
      push_neg at hcap
      have hL := liteCapacity_le img _ hcap
      apply bytesFromBits_length_of_mul8
      rw [List.length_drop, readBits_length,
        min_eq_left (by omega)]
      omega

set_option maxRecDepth 4096 in
/-- C9 witness: a 120-sample carrier with all LSBs clear extracts
successfully with a zero-length prefix and zero returned bytes. -/
theorem C9_witness :
    ([] : List Nat).length = fromBE (bytesFromBits (readBits wImgLite 32)) :=
  C9_plain_extract_length wImgLite [] (by decide) rfl

/-- C10: variation-selector extract never inspects the anchor: any two
texts agreeing after their first code point extract identically. -/
theorem C10_anchor_independent : ∀ t1 t2 : List Nat, t1.drop 1 = t2.drop 1 →
    emojiExtract t1 = emojiExtract t2 := by
  intro t1 t2 h
  unfold emojiExtract
  rw [h]

/-- C10 witness: two texts with different anchors (the second anchor
itself inside the mapped selector range) extract identically. -/
theorem C10_witness :
    emojiExtract [127775, 0xFE00, 0xFE00, 0xFE00, 0xFE01, 0xFE02] =
      emojiExtract [0xFE05, 0xFE00, 0xFE00, 0xFE00, 0xFE01, 0xFE02] :=
  C10_anchor_independent _ _ (by decide)

theorem liteCapacity_c2Img : liteCapacity c2Img = 1246 := by
  unfold liteCapacity c2Img
  rw [List.length_replicate]
  decide

theorem liteCapacity_wImgLite : liteCapacity wImgLite = 1 := by
  unfold liteCapacity wImgLite
  rw [List.length_replicate]
  decide

theorem prodCapacity_wImg : prodCapacity wImg = 1 := by
  unfold prodCapacity wImg
  rw [List.length_replicate]
  decide

/-- C2 (amended): pixel-LSB capacity in bytes equals
`floor(total_samples / 24)` minus the mode's reserved overhead (4 bytes
for plain mode, 53 bytes for protected mode); in particular a 100×100
3-channel carrier (30,000 samples) has plain-mode capacity
`30000 // 24 − 4 = 1246` bytes, and the 27-byte test payload embeds and
extracts intact there. -/
theorem C2_capacity_formula :
    (∀ img : List Nat, liteCapacity img = (img.length : Int) / 24 - 4
      ∧ prodCapacity img = (img.length : Int) / 24 - 53)
    ∧ liteCapacity c2Img = 1246
    ∧ liteEmbed c2Payload c2Img = .ok c2Carrier
    ∧ liteExtract c2Carrier = .ok c2Payload := by
  have hcap : (c2Payload.length : Int) ≤ liteCapacity c2Img := by
    rw [liteCapacity_c2Img]
    decide
  have h32 : c2Payload.length < 2 ^ 32 := by decide
  refine ⟨fun img => ⟨rfl, by unfold prodCapacity; norm_num⟩,
    liteCapacity_c2Img, liteEmbed_eq c2Payload c2Img hcap h32, ?_⟩
  exact liteExtract_writeBits c2Payload c2Img (by decide) hcap h32

/-- C2 counterexample: the spec's claimed capacity
`floor(30000 / 8) − 4 = 3746` is not what the code computes for the
100×100 3-channel carrier. -/
theorem C2_counterexample : liteCapacity c2Img ≠ 3746 := by
  rw [liteCapacity_c2Img]
  decide

/-- C6: a payload of exactly `capacity(carrier, mode)` bytes embeds
successfully, while `capacity + 1` bytes fails with the CapacityExceeded
error (`dataTooLarge`), for both pixel engines; for the protected engine
the failure is independent of the key-derivation and sealing functions
and of the salt and nonce draws, i.e. it is detected before any
randomness or cryptography is touched.  (The text transport has no
capacity query, so the boundary property does not apply to it.) -/
theorem C6_capacity_boundary :
    (∀ img data : List Nat, (data.length : Int) = liteCapacity img →
      data.length < 2 ^ 32 → ∃ c, liteEmbed data img = .ok c)
    ∧ (∀ img data : List Nat, (data.length : Int) = liteCapacity img + 1 →
      liteEmbed data img = .error .dataTooLarge)
    ∧ (∀ (kdf : List Nat → List Nat → List Nat)
        (sealFn : List Nat → List Nat → List Nat → List Nat)
        (pw img data salt nonce : List Nat), 12 ≤ pw.length →
      (data.length : Int) = prodCapacity img → data.length < 2 ^ 32 →
      ∃ c, prodEmbed kdf sealFn pw img data salt nonce = .ok c)
    ∧ (∀ (kdf : List Nat → List Nat → List Nat)
        (sealFn : List Nat → List Nat → List Nat → List Nat)
        (pw img data salt nonce : List Nat), 12 ≤ pw.length →
      (data.length : Int) = prodCapacity img + 1 →
      prodEmbed kdf sealFn pw img data salt nonce = .error .dataTooLarge) := by
  refine ⟨?_, ?_, ?_, ?_⟩
  · intro img data h1 h2
    exact ⟨_, liteEmbed_eq data img (le_of_eq h1) h2⟩
  · intro img data h1
    unfold liteEmbed
    rw [if_pos (by omega)]
  · intro kdf sealFn pw img data salt nonce hpw h1 h2
    exact ⟨_, prodEmbed_eq kdf sealFn pw img data salt nonce hpw (le_of_eq h1) h2⟩
  · intro kdf sealFn pw img data salt nonce hpw h1
    unfold prodEmbed
    rw [if_neg (by omega), if_pos (by omega)]

/-- C6 witness at concrete carriers of plain capacity 1 and protected
capacity 1. -/
theorem C6_witness :
    (∃ c, liteEmbed [7] wImgLite = .ok c)
    ∧ liteEmbed [7, 8] wImgLite = .error .dataTooLarge
    ∧ (∃ c, prodEmbed injKdf trivSeal wPw wImg wData wSalt wNonce = .ok c)
    ∧ prodEmbed injKdf trivSeal wPw wImg [1, 2] wSalt wNonce =
        .error .dataTooLarge := by
  obtain ⟨h1, h2, h3, h4⟩ := C6_capacity_boundary
  refine ⟨h1 wImgLite [7] ?_ (by decide), h2 wImgLite [7, 8] ?_,
    h3 injKdf trivSeal wPw wImg wData wSalt wNonce (by decide) ?_ (by decide),
    h4 injKdf trivSeal wPw wImg [1, 2] wSalt wNonce (by decide) ?_⟩
  · rw [liteCapacity_wImgLite]; decide
  · rw [liteCapacity_wImgLite]; decide
  · rw [prodCapacity_wImg]; decide
  · rw [prodCapacity_wImg]; decide

/-- Reading the header region of a freshly written protected frame
recovers exactly the frame header. -/
theorem prodFrame_header_read (img salt nonce ct : List Nat) (L : Nat)
    (hfits : (bitsFromBytes (prodFrame salt nonce ct L)).length ≤ img.length) :
    bytesFromBits (readBits
        (writeBits img (bitsFromBytes (prodFrame salt nonce ct L))) (9 * 8)) =
      prodHeader L salt.length nonce.length := by
  have hflen : 9 ≤ (prodFrame salt nonce ct L).length := by
    rw [prodFrame_length]; omega
  have h9 : readBits (writeBits img (bitsFromBytes (prodFrame salt nonce ct L)))
      (9 * 8) = bitsFromBytes ((prodFrame salt nonce ct L).take 9) := by
    rw [readBits_writeBits _ _ (bitsFromBytes_le_one _) hfits (9 * 8)
        (by rw [bitsFromBytes_length]; omega),
      show (9 * 8 : Nat) = 8 * 9 by ring, bitsFromBytes_take]
  rw [h9, prodFrame_take9]
  exact bytesFromBits_bitsFromBytes _ (prodHeader_lt _ _ _)

/-- A protected carrier whose header region decodes to `data_len = 0`
(with well-formed salt/nonce lengths) is rejected by extract with the
invalid-lengths FormatError before any body read. -/
theorem prodExtract_zero_header (kdf : List Nat → List Nat → List Nat)
    (opn : List Nat → List Nat → List Nat → Option (List Nat))
    (pw img : List Nat) (hpw : 12 ≤ pw.length)
    (hhdr : bytesFromBits (readBits img (9 * 8)) = prodHeader 0 16 12) :
    prodExtract kdf opn pw img = .error .invalidLengths := by
  unfold prodExtract
  rw [if_neg (by omega)]
  simp only [hhdr, prodHeader_length, prodHeader_getD0,
    prodHeader_dataLen 0 16 12 (by norm_num),
    prodHeader_saltLen 0 16 12 (by norm_num),
    prodHeader_nonceLen 0 16 12 (by norm_num)]
  rw [if_neg (by norm_num), if_neg (by norm_num),
    if_pos (by rintro ⟨-, -, -, -, h0, -⟩; exact absurd h0 (by norm_num))]

/-- C1 (amended): extracting from the carrier produced by embedding a
payload within capacity returns exactly the payload, for plain pixel
mode, protected pixel mode, and the variation-selector text transport.
Per the frame format, payload lengths fit the u32 length field; in
protected mode the payload must additionally be nonempty, because
extract's header validation rejects `data_len = 0`.  The protected
engine is parametric in the external KDF and AEAD; the AEAD hypotheses
are the spec's contract for `AESGCM`: byte-valued ciphertext of length
`plaintext + 16`, and decryption inverting encryption. -/
theorem C1_round_trip :
    (∀ data img : List Nat, (∀ b ∈ data, b < 256) →
      (data.length : Int) ≤ liteCapacity img → data.length < 2 ^ 32 →
      ∀ c, liteEmbed data img = .ok c → liteExtract c = .ok data)
    ∧ (∀ (kdf : List Nat → List Nat → List Nat)
        (sealFn : List Nat → List Nat → List Nat → List Nat)
        (opn : List Nat → List Nat → List Nat → Option (List Nat))
        (pw img data salt nonce : List Nat),
      (∀ k n p, (sealFn k n p).length = p.length + 16) →
      (∀ k n p, (∀ b ∈ p, b < 256) → ∀ b ∈ sealFn k n p, b < 256) →
      (∀ k n p, opn k n (sealFn k n p) = some p) →
      12 ≤ pw.length → (∀ b ∈ data, b < 256) →
      0 < data.length → data.length < 2 ^ 32 →
      salt.length = 16 → nonce.length = 12 →
      (∀ b ∈ salt, b < 256) → (∀ b ∈ nonce, b < 256) →
      (data.length : Int) ≤ prodCapacity img →
      ∀ c, prodEmbed kdf sealFn pw img data salt nonce = .ok c →
        prodExtract kdf opn pw c = .ok data)
    ∧ (∀ (anchor : Nat) (data : List Nat), (∀ b ∈ data, b < 256) →
      data.length < 2 ^ 32 →
      ∀ c, emojiEmbed anchor data = .ok c → emojiExtract c = .ok data) := by
  refine ⟨?_, ?_, ?_⟩
  · intro data img hd hcap h32 c hc
    rw [liteEmbed_eq data img hcap h32] at hc
    injection hc with hc2
    subst hc2
    exact liteExtract_writeBits data img hd hcap h32
  · intro kdf sealFn opn pw img data salt nonce hclen hcrng hcor hpw hd hpos h32
      hsalt hnonce hslt hnlt hcap c hc
    rw [prodEmbed_eq kdf sealFn pw img data salt nonce hpw hcap h32] at hc
    injection hc with hc2
    subst hc2
    rw [prodExtract_frame kdf opn pw img salt nonce
      (sealFn (kdf pw salt) nonce data) data.length hpw hsalt hnonce hslt hnlt
      (hcrng _ _ _ hd) (hclen _ _ _) hpos hcap h32, hcor (kdf pw salt) nonce data]
    show (if data.length ≠ data.length then Except.error ProdErr.lengthMismatch
      else Except.ok data) = Except.ok data
    rw [if_neg (by omega)]
  · intro anchor data hd h32 c hc
    rw [emojiEmbed_eq anchor data hd h32] at hc
    injection hc with hc2
    subst hc2
    exact emojiExtract_embedded anchor data hd h32

/-- C1 witness: concrete round trips in all three modes, with the
executable model KDF and AEAD in protected mode. -/
theorem C1_witness :
    liteExtract (writeBits wImgLite (bitsFromBytes
        (toBE 4 (List.length [7]) ++ [7]))) = .ok [7]
    ∧ prodExtract injKdf trivOpn wPw (writeBits wImg (bitsFromBytes
        (prodFrame wSalt wNonce
          (trivSeal (injKdf wPw wSalt) wNonce wData) wData.length))) = .ok wData
    ∧ emojiExtract (127775 :: (toBE 4 (List.length [1, 2, 3]) ++ [1, 2, 3]).map vsFwd) =
        .ok [1, 2, 3] := by
  obtain ⟨h1, h2, h3⟩ := C1_round_trip
  refine ⟨h1 [7] wImgLite (by decide) ?_ (by decide) _ ?_,
    h2 injKdf trivSeal trivOpn wPw wImg wData wSalt wNonce trivSeal_length
      trivSeal_lt trivOpn_trivSeal (by decide) (by decide) (by decide) (by decide)
      (by decide) (by decide) (by decide) (by decide) ?_ _ ?_,
    h3 127775 [1, 2, 3] (by decide) (by decide) _ ?_⟩
  · rw [liteCapacity_wImgLite]; decide
  · exact liteEmbed_eq [7] wImgLite (by rw [liteCapacity_wImgLite]; decide) (by decide)
  · rw [prodCapacity_wImg]; decide
  · exact prodEmbed_eq injKdf trivSeal wPw wImg wData wSalt wNonce (by decide)
      (by rw [prodCapacity_wImg]; decide) (by decide)
  · exact emojiEmbed_eq 127775 [1, 2, 3] (by decide) (by decide)

/-- C1 counterexample: the round trip fails for the EMPTY payload in
protected mode — embed succeeds, but extract rejects the carrier with
the invalid-lengths FormatError (its header validation requires
`0 < data_len`), so no payload is returned. -/
theorem C1_counterexample :
    prodEmbed injKdf trivSeal wPw wImg [] wSalt wNonce = .ok ceCarrier2
    ∧ prodExtract injKdf trivOpn wPw ceCarrier2 = .error .invalidLengths := by
  constructor
  · exact prodEmbed_eq injKdf trivSeal wPw wImg [] wSalt wNonce (by decide)
      (by rw [prodCapacity_wImg]; decide) (by decide)
  · apply prodExtract_zero_header injKdf trivOpn wPw ceCarrier2 (by decide)
    unfold ceCarrier2
    have h := prodFrame_header_read wImg wSalt wNonce
      (trivSeal (injKdf wPw wSalt) wNonce []) 0 ?_
    · rw [h]
      rfl
    · rw [bitsFromBytes_length, prodFrame_length]
      have : wImg.length = 1296 := by
        unfold wImg; rw [List.length_replicate]
      rw [this, trivSeal_length]
      decide

/-- C3 (amended): protected-mode extract never returns unauthenticated
plaintext: for every carrier produced by a protected embed of a
NONEMPTY payload, flipping any single LSB in the body region (the
salt, nonce, or ciphertext/tag bits), or extracting with a different
password of at least 12 characters, makes extract fail with the
AuthenticationFailure error (`decryptFailed`) and return no payload.
The hypotheses on `kdf` and `opn` are the spec's black-box contracts:
the KDF is collision-free in (password, salt), and the AEAD open
accepts only the genuine (key, nonce, ciphertext) triple of this embed
(the ideal authenticity functionality that `AESGCM` instantiates
computationally).  The nonemptiness amendment is forced by extract's
header validation, which rejects `data_len = 0` with a FormatError
instead. -/
theorem C3_tamper_detection :
    ∀ (kdf : List Nat → List Nat → List Nat)
      (sealFn : List Nat → List Nat → List Nat → List Nat)
      (opn : List Nat → List Nat → List Nat → Option (List Nat))
      (pw img data salt nonce : List Nat),
    (∀ p s p2 s2, kdf p s = kdf p2 s2 → p = p2 ∧ s = s2) →
    (∀ k n p, (sealFn k n p).length = p.length + 16) →
    (∀ k n p, (∀ b ∈ p, b < 256) → ∀ b ∈ sealFn k n p, b < 256) →
    (∀ k n c p, opn k n c = some p →
      k = kdf pw salt ∧ n = nonce ∧ c = sealFn (kdf pw salt) nonce data) →
    12 ≤ pw.length → (∀ b ∈ data, b < 256) →
    0 < data.length → data.length < 2 ^ 32 →
    salt.length = 16 → nonce.length = 12 →
    (∀ b ∈ salt, b < 256) → (∀ b ∈ nonce, b < 256) →
    (data.length : Int) ≤ prodCapacity img →
    ∀ carrier, prodEmbed kdf sealFn pw img data salt nonce = .ok carrier →
      (∀ m, 72 ≤ m → m < 8 * (53 + data.length) →
        prodExtract kdf opn pw (carrier.set m (carrier.getD m 0 ^^^ 1)) =
          .error .decryptFailed)
      ∧ (∀ pw2, 12 ≤ pw2.length → pw2 ≠ pw →
          prodExtract kdf opn pw2 carrier = .error .decryptFailed) := by
  intro kdf sealFn opn pw img data salt nonce hkdfInj hclen hcrng hideal hpw hd
    hpos h32 hsalt hnonce hslt hnlt hcap carrier hc
  rw [prodEmbed_eq kdf sealFn pw img data salt nonce hpw hcap h32] at hc
  injection hc with hc2
  subst hc2
  constructor
  · intro m hm72 hm
    obtain ⟨s2, n2, c2, heq, hne⟩ := prodExtract_frame_flip kdf opn pw img salt
      nonce (sealFn (kdf pw salt) nonce data) data.length m hpw hsalt hnonce
      hslt hnlt (hcrng _ _ _ hd) (hclen _ _ _) hpos hcap h32 hm72 hm
    rw [heq]
    cases hopn : opn (kdf pw s2) n2 c2 with
    | none => rfl
    | some p =>
        obtain ⟨hk, hn, hctr⟩ := hideal _ _ _ _ hopn
        obtain ⟨-, hs⟩ := hkdfInj _ _ _ _ hk
        exact absurd ⟨hs, hn, hctr⟩ hne
  · intro pw2 hpw2 hne2
    rw [prodExtract_frame kdf opn pw2 img salt nonce
      (sealFn (kdf pw salt) nonce data) data.length hpw2 hsalt hnonce hslt hnlt
      (hcrng _ _ _ hd) (hclen _ _ _) hpos hcap h32]
    cases hopn : opn (kdf pw2 salt) nonce (sealFn (kdf pw salt) nonce data) with
    | none => rfl
    | some p =>
        obtain ⟨hk, -, -⟩ := hideal _ _ _ _ hopn
        obtain ⟨hp, -⟩ := hkdfInj _ _ _ _ hk
        exact absurd hp hne2

/-- C3 witness: with the executable injective KDF and ideal
single-message AEAD, flipping the first body-region LSB of the concrete
witness carrier, or extracting it with a different password, yields the
AuthenticationFailure error. -/
theorem C3_witness :
    prodExtract injKdf idealOpn wPw (wCarrier.set 72 (wCarrier.getD 72 0 ^^^ 1)) =
      .error .decryptFailed
    ∧ prodExtract injKdf idealOpn wPw2 wCarrier = .error .decryptFailed := by
  obtain ⟨h1, h2⟩ := C3_tamper_detection injKdf trivSeal idealOpn wPw wImg wData
    wSalt wNonce injKdf_inj trivSeal_length trivSeal_lt idealOpn_only
    (by decide) (by decide) (by decide) (by decide) (by decide) (by decide)
    (by decide) (by decide) (by rw [prodCapacity_wImg]; decide) wCarrier
    (prodEmbed_eq injKdf trivSeal wPw wImg wData wSalt wNonce (by decide)
      (by rw [prodCapacity_wImg]; decide) (by decide))
  exact ⟨h1 72 (by norm_num) (by decide), h2 wPw2 (by decide) (by decide)⟩

/-- C3 counterexample: for a carrier produced by a protected embed of
the EMPTY payload, flipping a body-region LSB makes extract fail with
the invalid-lengths FormatError, not AuthenticationFailure — the claim's
universal quantification over "every carrier produced by a protected
embed" fails at empty payloads. -/
theorem C3_counterexample :
    prodEmbed injKdf trivSeal wPw wImg [] wSalt wNonce = .ok ceCarrier2
    ∧ prodExtract injKdf idealOpn wPw
        (ceCarrier2.set 72 (ceCarrier2.getD 72 0 ^^^ 1)) = .error .invalidLengths
    ∧ Except.error ProdErr.invalidLengths ≠
        (Except.error ProdErr.decryptFailed : Except ProdErr (List Nat)) := by
  have hfits : (bitsFromBytes (prodFrame wSalt wNonce
      (trivSeal (injKdf wPw wSalt) wNonce []) 0)).length ≤ wImg.length := by
    rw [bitsFromBytes_length, prodFrame_length]
    have hw : wImg.length = 1296 := by
      unfold wImg; rw [List.length_replicate]
    rw [hw, trivSeal_length]
    decide
  refine ⟨prodEmbed_eq injKdf trivSeal wPw wImg [] wSalt wNonce (by decide)
      (by rw [prodCapacity_wImg]; decide) (by decide), ?_, by simp⟩
  apply prodExtract_zero_header injKdf idealOpn wPw _ (by decide)
  have hsame : readBits (ceCarrier2.set 72 (ceCarrier2.getD 72 0 ^^^ 1)) (9 * 8) =
      readBits ceCarrier2 (9 * 8) := by
    unfold readBits
    rw [show (9 * 8 : Nat) = 72 from rfl, take_set_of_le _ _ _ _ le_rfl]
  rw [hsame]
  unfold ceCarrier2
  have h := prodFrame_header_read wImg wSalt wNonce
    (trivSeal (injKdf wPw wSalt) wNonce []) 0 hfits
  rw [h]
  rfl

/-- C4: on any carrier of at least 72 samples whose decoded protected
header has `salt_len` zero or above 64, `nonce_len` zero or above 32,
`data_len` zero, or `data_len` above the computed capacity, extract
rejects with a FormatError-class error (`unsupportedVersion` or
`invalidLengths`, both before any body slicing), and the result is
identical for any carrier of the same length agreeing on the first 72
samples and for ANY key-derivation and decryption functions — no body
byte is read and no cryptography is performed. -/
theorem C4_header_validation :
    ∀ (kdf : List Nat → List Nat → List Nat)
      (opn : List Nat → List Nat → List Nat → Option (List Nat))
      (pw img : List Nat), 12 ≤ pw.length → 72 ≤ img.length →
    (fromBE (((bytesFromBits (readBits img (9 * 8))).drop 5).take 2) = 0
      ∨ 64 < fromBE (((bytesFromBits (readBits img (9 * 8))).drop 5).take 2)
      ∨ fromBE (((bytesFromBits (readBits img (9 * 8))).drop 7).take 2) = 0
      ∨ 32 < fromBE (((bytesFromBits (readBits img (9 * 8))).drop 7).take 2)
      ∨ fromBE (((bytesFromBits (readBits img (9 * 8))).drop 1).take 4) = 0
      ∨ prodCapacity img <
          (fromBE (((bytesFromBits (readBits img (9 * 8))).drop 1).take 4) : Int)) →
    (prodExtract kdf opn pw img = .error .unsupportedVersion
      ∨ prodExtract kdf opn pw img = .error .invalidLengths)
    ∧ ∀ (kdf2 : List Nat → List Nat → List Nat)
        (opn2 : List Nat → List Nat → List Nat → Option (List Nat))
        (img2 : List Nat), img2.length = img.length → img2.take 72 = img.take 72 →
        prodExtract kdf2 opn2 pw img2 = prodExtract kdf opn pw img := by
  intro kdf opn pw img hpw himg hbad
  have hlen9 : (bytesFromBits (readBits img (9 * 8))).length = 9 := by
    apply bytesFromBits_length_of_mul8
    rw [readBits_length, min_eq_left (by omega)]
  have hinv : ¬(0 < fromBE (((bytesFromBits (readBits img (9 * 8))).drop 5).take 2) ∧
      fromBE (((bytesFromBits (readBits img (9 * 8))).drop 5).take 2) ≤ 64 ∧
      0 < fromBE (((bytesFromBits (readBits img (9 * 8))).drop 7).take 2) ∧
      fromBE (((bytesFromBits (readBits img (9 * 8))).drop 7).take 2) ≤ 32 ∧
      0 < fromBE (((bytesFromBits (readBits img (9 * 8))).drop 1).take 4) ∧
      (fromBE (((bytesFromBits (readBits img (9 * 8))).drop 1).take 4) : Int) ≤
        prodCapacity img) := by
    rintro ⟨h1, h2, h3, h4, h5, h6⟩
    rcases hbad with h | h | h | h | h | h <;> omega
  have hsame : ∀ (kdf2 : List Nat → List Nat → List Nat)
      (opn2 : List Nat → List Nat → List Nat → Option (List Nat))
      (img2 : List Nat), img2.length = img.length → img2.take 72 = img.take 72 →
      prodExtract kdf2 opn2 pw img2 =
        (if (bytesFromBits (readBits img (9 * 8))).getD 0 0 ≠ 1 then
          Except.error ProdErr.unsupportedVersion
        else Except.error ProdErr.invalidLengths) := by
    intro kdf2 opn2 img2 hl ht
    have hread : readBits img2 (9 * 8) = readBits img (9 * 8) := by
      unfold readBits
      rw [show (9 * 8 : Nat) = 72 from rfl, ht]
    have hcap2 : prodCapacity img2 = prodCapacity img := by
      unfold prodCapacity
      rw [hl]
    simp only [prodExtract, hread, hcap2]
    rw [if_neg (by omega), if_neg (by omega)]
    by_cases hv : (bytesFromBits (readBits img (9 * 8))).getD 0 0 = 1
    · conv_rhs => rw [if_neg (by omega)]
      rw [if_neg (by omega), if_pos hinv]
    · conv_rhs => rw [if_pos hv]
      rw [if_pos hv]
  refine ⟨?_, fun kdf2 opn2 img2 hl ht => by
    rw [hsame kdf2 opn2 img2 hl ht, hsame kdf opn img rfl rfl]⟩
  rw [hsame kdf opn img rfl rfl]
  by_cases hv : (bytesFromBits (readBits img (9 * 8))).getD 0 0 = 1
  · rw [if_neg (by omega)]
    exact Or.inr rfl
  · rw [if_pos (by omega)]
    exact Or.inl rfl

/-- C4 witness: on the concrete 80-sample carrier whose header claims
`salt_len = 0`, extract rejects with a FormatError-class error, and the
result is unchanged for a carrier agreeing on the first 72 samples and
for different crypto primitives. -/
theorem C4_witness :
    (prodExtract injKdf trivOpn wPw c4Img = .error .unsupportedVersion
      ∨ prodExtract injKdf trivOpn wPw c4Img = .error .invalidLengths)
    ∧ prodExtract injKdf idealOpn wPw c4Img2 = prodExtract injKdf trivOpn wPw c4Img := by
  obtain ⟨h1, h2⟩ := C4_header_validation injKdf trivOpn wPw c4Img (by decide)
    (by decide) (Or.inl (by decide))
  exact ⟨h1, h2 injKdf idealOpn c4Img2 (by decide) (by decide)⟩

end EzSteg
